import Mathlib

/-!
Verification of the blanc-os physical frame allocator and task-id assignment.

Shallow embedding of `src/crate/memory/src/phys.rs` and
`src/crate/coop/src/lib.rs`.  Machine `u64` values are modelled as `Nat`
with explicit `2 ^ 64` bounds where they matter; raw-pointer reads and
writes into the bitmap are modelled by a `List Nat` holding exactly the
64-bit words the code ever touches.

On the bitmap layout: every routine in `phys.rs` addresses the word for
bitmap word-index `k` at byte offset `64 * k` from its base
(`allocate_frame` starts at `BITMAP_START` and advances the `*mut u64`
pointer by `.add(8)`, i.e. 64 bytes; `deallocate_frame` and
`allocate_frame_nth` use `u64_byte << 6`).  The layout is therefore
sparse (one used word per 64 bytes) but self-consistent.  The `bitmap`
field below is the sequence of exactly those words, word `k` of the list
being the `u64` at byte offset `64 * k`; the `allocate_frame` loop bound
`bm_ptr < BITMAP_START + (bit_map_region.end - bit_map_region.start)`
makes the list length `ceil (regionLen / 64)`.

`allocate_frame_nth` dereferences `bit_map_region.start + (u64_byte << 6)`
(a physical address used as a pointer, unlike the virtual `BITMAP_START`
base used everywhere else); we charitably model that dereference as the
bitmap word with index `u64_byte`, which is the word the expression is
evidently aimed at.
-/

namespace BlancOS

/-- Maximal value of a `u64`; the literal `0xFFFFFFFFFFFFFFFF` from the
    full-word skip test in `allocate_frame`. -/
def U64MAX : Nat := 0xFFFFFFFFFFFFFFFF

/-- The fixed virtual base the bitmap is mapped at:
    `const BITMAP_START: usize = 0xFFFF_FF00_0000_0000`. -/
def BITMAP_START : Nat := 0xFFFFFF0000000000

/-- Model of `x86_64::PhysAddr::align_down` / `containing_address` for the
    power-of-two alignment 4096: clear the low bits. -/
def alignDown (addr align : Nat) : Nat := addr - addr % align

/-- Model of `bootloader::boot_info::MemoryRegionKind`. -/
inductive MemoryRegionKind where
  | Usable
  | Bootloader
  | UnknownUefi
  | UnknownBios
deriving DecidableEq

/-- Model of `bootloader::boot_info::MemoryRegion`: a `[start, end)`
    physical range tagged with a kind. -/
structure MemoryRegion where
  start : Nat
  «end» : Nat
  kind : MemoryRegionKind
deriving DecidableEq

/-- Model of `MemoryRegion::empty()` (zero range, `Bootloader` kind). -/
def MemoryRegion.empty : MemoryRegion := ⟨0, 0, MemoryRegionKind.Bootloader⟩

/-- The allocator struct of `phys.rs`: the usable region left after the
    bitmap carve-out, and the region backing the bitmap itself. -/
structure PhysFrameAllocator where
  usable_memory_region : MemoryRegion
  bit_map_region : MemoryRegion
deriving DecidableEq

/-- Allocator plus the current contents of the bitmap words it scans
    (word `k` of the list = the `u64` at virtual address
    `BITMAP_START + 64 * k`). -/
structure AllocState where
  alloc : PhysFrameAllocator
  bitmap : List Nat
deriving DecidableEq

/-- Well-formedness of a bitmap state: every word is a `u64` value. -/
def AllocState.wf (s : AllocState) : Prop := ∀ w ∈ s.bitmap, w < 2 ^ 64

instance (s : AllocState) : Decidable s.wf := List.decidableBAll _ s.bitmap

/-- The inner loop of `allocate_frame`:
    `while index < 64 { if quadword & 1 == 0 { return index }
     index += 1; quadword >>= 1 }`.
    `fuel` is `64 - index`, making the recursion structural. -/
def scanBitsAux : Nat → Nat → Nat → Option Nat
  | _, _, 0 => none
  | quadword, index, fuel + 1 =>
    if quadword &&& 1 = 0 then some index
    else scanBitsAux (quadword >>> 1) (index + 1) fuel

/-- Lowest-zero-bit search over one 64-bit word, starting at index 0. -/
def scanBits (quadword : Nat) : Option Nat := scanBitsAux quadword 0 64

/-- The outer loop of `allocate_frame` over the scanned bitmap words.
    Word `k` of the list sits at byte offset `64 * k`, and the frame index
    returned by the source is that byte offset plus the bit index, so each
    step deeper adds 64 to the returned index.  A full word
    (`quadword == 0xFFFFFFFFFFFFFFFF`) is skipped without bit inspection.
    On success the word is rewritten to `qw_clone | (0x01 << index)`. -/
def allocateScan : List Nat → Option (Nat × List Nat)
  | [] => none
  | quadword :: rest =>
    if quadword ≠ U64MAX then
      match scanBits quadword with
      | some index => some (index, (quadword ||| (1 <<< index)) :: rest)
      | none =>
        match allocateScan rest with
        | some (idx, rest') => some (64 + idx, quadword :: rest')
        | none => none
    else
      match allocateScan rest with
      | some (idx, rest') => some (64 + idx, quadword :: rest')
      | none => none

/-- Model of `PhysFrameAllocator::frame_from_bit_index`:
    `PhysFrame::containing_address(usable_memory_region.start + (index << 12))`.
    A `PhysFrame` is represented by its start address. -/
def frame_from_bit_index (a : PhysFrameAllocator) (index : Nat) : Nat :=
  alignDown (a.usable_memory_region.start + (index <<< 12)) 4096

/-- Model of `allocate_frame` (the `FrameAllocator` impl): scan the bitmap
    words from the mapped virtual base, set the first zero bit found and
    return the frame for its bit index; `(none, s)` when every word is
    full (the failure path writes nothing). -/
def allocate_frame (s : AllocState) : Option Nat × AllocState :=
  match allocateScan s.bitmap with
  | some (idx, bm) => (some (frame_from_bit_index s.alloc idx), { s with bitmap := bm })
  | none => (none, s)

/-- Model of `deallocate_frame`: recompute the bit index from the frame
    start address and clear that bit (`*ptr &= !(1 << bit_index)`;
    Rust `!x` on `u64` is `U64MAX ^^^ x`). -/
def deallocate_frame (s : AllocState) (frame : Nat) : AllocState :=
  let usable_addr := frame - s.alloc.usable_memory_region.start
  let index := usable_addr >>> 12
  let u64_byte := index >>> 6
  let bit_index := index % 64
  { s with
    bitmap := s.bitmap.set u64_byte
      ((s.bitmap.getD u64_byte 0) &&& (U64MAX ^^^ (1 <<< bit_index))) }

/-- Model of `allocate_frame_nth`, translated verbatim: the success test
    is `*u64_byte_ptr >> bit_index == 1` (a whole-word comparison, not a
    bit test) and the success-branch store is
    `*u64_byte_ptr &= !(0 << bit_index)`. -/
def allocate_frame_nth (s : AllocState) (start : Nat) : Option Nat × AllocState :=
  let start_frame_addr := alignDown start 4096
  let usable_addr := start_frame_addr - s.alloc.usable_memory_region.start
  let index := usable_addr >>> 12
  let u64_byte := index >>> 6
  let bit_index := index % 64
  let w := s.bitmap.getD u64_byte 0
  if w >>> bit_index = 1 then
    (some start_frame_addr,
      { s with bitmap := s.bitmap.set u64_byte (w &&& (U64MAX ^^^ (0 <<< bit_index))) })
  else (none, s)

/-- Task identifier from `coop/src/lib.rs`. -/
structure TaskId where
  val : Nat
deriving DecidableEq

/-- Model of `TaskId::new`: `NEXT_ID.fetch_add(1, Ordering::Relaxed)`
    returns the previous counter value and stores it plus one, wrapping
    as a `u64`.  The counter (`NEXT_ID`, starting at 0) is passed
    explicitly. -/
def TaskId.new (next_id : Nat) : TaskId × Nat := (⟨next_id⟩, (next_id + 1) % 2 ^ 64)

/-- Task from `coop/src/lib.rs`; the pinned future is opaque to the
    claims, only the identifier is modelled. -/
structure Task where
  id : TaskId
deriving DecidableEq

/-- Model of `Task::new`: assign `TaskId::new()` to the task. -/
def Task.new (next_id : Nat) : Task × Nat :=
  let p := TaskId.new next_id
  (⟨p.1⟩, p.2)

/-- Identifiers handed out by `n` successive `Task::new` calls starting
    from counter value `c`. -/
def taskIdSeq : Nat → Nat → List Nat
  | _, 0 => []
  | c, n + 1 =>
    let p := Task.new c
    p.1.id.val :: taskIdSeq p.2 n

/-- Global singletons of `phys.rs` (`FRAME_ALLOCATOR`, `BYTES_AVAILABLE_RAM`,
    both `spin::Once`) together with the kernel page table, modelled as an
    association list from virtual page start to mapped physical frame. -/
structure GlobalState where
  frame_allocator : Option PhysFrameAllocator
  bytes_available_ram : Option Nat
  page_table : List (Nat × Nat)
deriving DecidableEq

/-- One step of the region loop in `init`: a usable region overwrites the
    accumulated `(usable_memory_region, bit_map_region, num_bit_map_frames)`
    triple, any other region is skipped. -/
def initAccum (acc : MemoryRegion × MemoryRegion × Nat) (r : MemoryRegion) :
    MemoryRegion × MemoryRegion × Nat :=
  if r.kind = MemoryRegionKind.Usable then
    let num_bit_map_frames := ((r.«end» - r.start) >>> 24) + 1
    (⟨r.start + (num_bit_map_frames <<< 12), r.«end», MemoryRegionKind.Usable⟩,
     ⟨r.start, r.start + (num_bit_map_frames <<< 12) - 1, acc.2.1.kind⟩,
     num_bit_map_frames)
  else acc

/-- Model of `x86_64::structures::paging::Page::range_inclusive` over
    page start addresses (step 4096, inclusive of the end page, empty
    when the start page is above the end page). -/
def pageRangeInclusive (s e : Nat) : List Nat :=
  if s ≤ e then (List.range ((e - s) / 4096 + 1)).map (fun k => s + 4096 * k) else []

/-- Model of `(bit_map_region.start..bit_map_region.end).step_by(4096)`. -/
def stepBy4096 (s e : Nat) : List Nat :=
  (List.range (((e - s) + 4095) / 4096)).map (fun k => s + 4096 * k)

/-- The mapping loop of `map_bit_frames`.  `map_to` (from the `x86_64`
    crate, an external collaborator) fails with `PageAlreadyMapped` when
    the page already has an entry; that error, a missing frame
    (`FrameAllocationFailed`), or a failed `translate_page` assertion is
    unwrapped by the source and so modelled as `none` (panic). -/
def mapAll : List (Nat × Nat) → List Nat → List Nat → Option (List (Nat × Nat))
  | pt, [], _ => some pt
  | _, _ :: _, [] => none
  | pt, p :: ps, f :: fs =>
    if (pt.lookup p).isSome then none
    else if (((p, f) :: pt).lookup p) = some f then mapAll ((p, f) :: pt) ps fs
    else none

/-- The `page_range` built by `map_bit_frames`: pages covering
    `BITMAP_START .. BITMAP_START + (bit_map_region.end - bit_map_region.start)`
    inclusive of the end page. -/
def bitMapPageRange (bit_map_region : MemoryRegion) : List Nat :=
  pageRangeInclusive (alignDown BITMAP_START 4096)
    (alignDown (BITMAP_START + (bit_map_region.«end» - bit_map_region.start)) 4096)

/-- The `frame_addresses` iterator of `map_bit_frames`:
    `(bit_map_region.start..bit_map_region.end).step_by(4096)` mapped through
    `PhysFrame::containing_address`. -/
def bitMapFrames (bit_map_region : MemoryRegion) : List Nat :=
  (stepBy4096 bit_map_region.start bit_map_region.«end»).map (fun a => alignDown a 4096)

/-- Model of `map_bit_frames`: check the
    `assert_eq!(page_range.count(), num_bit_map_frames)` (its failure is a
    panic, modelled as `none`), then map each page of the bitmap window to
    its frame. -/
def map_bit_frames (pt : List (Nat × Nat)) (bit_map_region : MemoryRegion)
    (num_bit_map_frames : Nat) : Option (List (Nat × Nat)) :=
  if (bitMapPageRange bit_map_region).length = num_bit_map_frames then
    mapAll pt (bitMapPageRange bit_map_region) (bitMapFrames bit_map_region)
  else none

/-- The region loop of `init` over the boot memory-region list, producing
    `(usable_memory_region, bit_map_region, num_bit_map_frames)`. -/
def initRegions (memory_regions : List MemoryRegion) : MemoryRegion × MemoryRegion × Nat :=
  memory_regions.foldl initAccum (⟨0, 0, MemoryRegionKind.Usable⟩, MemoryRegion.empty, 0)

/-- Model of `PhysFrameAllocator::init`: run the region loop, run
    `map_bit_frames` (whose failure is unwrapped, i.e. a panic, modelled
    as `none`), then `call_once` both singletons (`Option.getD` keeps an
    already-installed value, matching `spin::Once::call_once`). -/
def PhysFrameAllocator.init (g : GlobalState) (memory_regions : List MemoryRegion) :
    Option GlobalState :=
  match map_bit_frames g.page_table (initRegions memory_regions).2.1
      (initRegions memory_regions).2.2 with
  | none => none
  | some pt =>
    some { frame_allocator := some (g.frame_allocator.getD
             ⟨(initRegions memory_regions).1, (initRegions memory_regions).2.1⟩),
           bytes_available_ram := some (g.bytes_available_ram.getD
             ((initRegions memory_regions).1.«end» - (initRegions memory_regions).1.start)),
           page_table := pt }

/-- Allocator geometry that `init` derives from a boot map whose single
    usable region is `[0, 0x3000)`: one bitmap frame, usable RAM
    `[4096, 12288)`, i.e. exactly the two frames 4096 and 8192. -/
def demoAlloc : PhysFrameAllocator :=
  ⟨⟨4096, 12288, MemoryRegionKind.Usable⟩, ⟨0, 4095, MemoryRegionKind.Bootloader⟩⟩

/-- The demo allocator with an all-zero (fully free) bitmap. -/
def demoFree : AllocState := ⟨demoAlloc, List.replicate 64 0⟩

/-- The demo allocator after its first frame (bit 0) has been allocated. -/
def demoOne : AllocState := ⟨demoAlloc, 1 :: List.replicate 63 0⟩

/-- The demo allocator after its first two frames have been allocated. -/
def demoTwo : AllocState := ⟨demoAlloc, 3 :: List.replicate 63 0⟩

/-- The demo allocator with a completely full bitmap. -/
def demoFull : AllocState := ⟨demoAlloc, List.replicate 64 U64MAX⟩

/-- Empty global state: nothing installed, nothing mapped. -/
def demoG0 : GlobalState := ⟨none, none, []⟩

/-- Boot memory-region list with the single usable region `[0, 0x3000)`. -/
def demoRegions : List MemoryRegion := [⟨0, 0x3000, MemoryRegionKind.Usable⟩]

/-- The global state produced by a successful `init demoG0 demoRegions`. -/
def demoG1 : GlobalState := ⟨some demoAlloc, some 8192, [(BITMAP_START, 0)]⟩

/-- Allocator geometry that `init` derives from a boot map whose single
    usable region is `[0, 0x1000000)` (16 MiB): two bitmap frames. -/
def demoAlloc2 : PhysFrameAllocator :=
  ⟨⟨8192, 0x1000000, MemoryRegionKind.Usable⟩, ⟨0, 8191, MemoryRegionKind.Bootloader⟩⟩

/-- The global state produced by a successful `init` on the 16 MiB region. -/
def demoG2 : GlobalState :=
  ⟨some demoAlloc2, some 16769024, [(BITMAP_START + 4096, 4096), (BITMAP_START, 0)]⟩

/-! Helper lemmas about the bit-scan loop. -/

theorem scanBitsAux_some {q idx fuel i : Nat} (h : scanBitsAux q idx fuel = some i) :
    ∃ d, d < fuel ∧ i = idx + d ∧ (q >>> d) &&& 1 = 0 ∧ ∀ j < d, (q >>> j) &&& 1 = 1 := by
  induction fuel generalizing q idx with
  | zero => simp [scanBitsAux] at h
  | succ fuel ih =>
    rw [scanBitsAux] at h
    by_cases hq : q &&& 1 = 0
    · refine ⟨0, Nat.succ_pos _, ?_, ?_, ?_⟩
      · simpa [hq] using h.symm
      · simpa [Nat.shiftRight_zero] using hq
      · intro j hj; omega
    · simp only [if_neg hq] at h
      obtain ⟨d, hd, hi, hz, hones⟩ := ih h
      refine ⟨d + 1, by omega, by omega, ?_, ?_⟩
      · rw [show d + 1 = 1 + d by omega, Nat.shiftRight_add]; exact hz
      · intro j hj
        match j with
        | 0 =>
          have := Nat.and_one_is_mod q
          rw [Nat.shiftRight_zero]
          omega
        | j + 1 =>
          rw [show j + 1 = 1 + j by omega, Nat.shiftRight_add]
          exact hones j (by omega)

theorem scanBitsAux_none {q idx fuel : Nat} (h : scanBitsAux q idx fuel = none) :
    ∀ j < fuel, (q >>> j) &&& 1 = 1 := by
  induction fuel generalizing q idx with
  | zero => intro j hj; omega
  | succ fuel ih =>
    rw [scanBitsAux] at h
    by_cases hq : q &&& 1 = 0
    · simp [hq] at h
    · simp only [if_neg hq] at h
      intro j hj
      match j with
      | 0 =>
        have := Nat.and_one_is_mod q
        rw [Nat.shiftRight_zero]
        omega
      | j + 1 =>
        rw [show j + 1 = 1 + j by omega, Nat.shiftRight_add]
        exact ih h j (by omega)

theorem scanBitsAux_found {q idx fuel b : Nat} (hb : b < fuel)
    (h0 : (q >>> b) &&& 1 = 0) (hlow : ∀ j < b, (q >>> j) &&& 1 = 1) :
    scanBitsAux q idx fuel = some (idx + b) := by
  induction fuel generalizing q idx b with
  | zero => omega
  | succ fuel ih =>
    rw [scanBitsAux]
    match b with
    | 0 =>
      rw [Nat.shiftRight_zero] at h0
      simp [h0]
    | b + 1 =>
      have h1 : q &&& 1 = 1 := by
        have := hlow 0 (by omega)
        rwa [Nat.shiftRight_zero] at this
      rw [if_neg (by omega)]
      have := @ih (q >>> 1) (idx + 1) b (by omega)
        (by rw [← Nat.shiftRight_add]; simpa [Nat.add_comm] using h0)
        (fun j hj => by
          rw [← Nat.shiftRight_add]
          exact hlow (1 + j) (by omega))
      rw [this]
      congr 1
      omega

/-- Bridge between the loop test `(q >> j) & 1` and `Nat.testBit`. -/
theorem shift_and_one_eq (q j : Nat) : (q >>> j) &&& 1 = if q.testBit j then 1 else 0 := by
  rw [Nat.and_one_is_mod, Nat.shiftRight_eq_div_pow, Nat.testBit_to_div_mod]
  rcases Nat.mod_two_eq_zero_or_one (q / 2 ^ j) with h | h
  · simp [h]
  · simp [h]

theorem U64MAX_eq : U64MAX = 2 ^ 64 - 1 := by decide

theorem eq_U64MAX_of_all_bits {q : Nat} (hq : q < 2 ^ 64)
    (h : ∀ j < 64, (q >>> j) &&& 1 = 1) : q = U64MAX := by
  rw [U64MAX_eq]
  apply Nat.eq_of_testBit_eq
  intro i
  rw [Nat.testBit_two_pow_sub_one]
  by_cases hi : i < 64
  · have := h i hi
    rw [shift_and_one_eq] at this
    simp only [hi, decide_True]
    by_contra hb
    simp [Bool.not_eq_true] at hb
    simp [hb] at this
  · have : q < 2 ^ i := lt_of_lt_of_le hq (Nat.pow_le_pow_right (by omega) (by omega))
    simp [Nat.testBit_lt_two_pow this, hi]

theorem scanBits_eq_none_iff {q : Nat} (hq : q < 2 ^ 64) :
    scanBits q = none ↔ q = U64MAX := by
  constructor
  · intro h
    exact eq_U64MAX_of_all_bits hq (scanBitsAux_none h)
  · rintro rfl
    decide

theorem scanBits_some_spec {q b : Nat} (h : scanBits q = some b) :
    b < 64 ∧ q.testBit b = false ∧ ∀ j < b, q.testBit j = true := by
  obtain ⟨d, hd, hi, hz, hones⟩ := scanBitsAux_some h
  subst hi
  rw [Nat.zero_add] at *
  refine ⟨hd, ?_, ?_⟩
  · rw [shift_and_one_eq] at hz
    by_contra hb
    simp [Bool.not_eq_false] at hb
    simp [hb] at hz
  · intro j hj
    have := hones j hj
    rw [shift_and_one_eq] at this
    by_contra hb
    simp [Bool.not_eq_true] at hb
    simp [hb] at this

theorem scanBits_found {q b : Nat} (hb : b < 64) (h0 : q.testBit b = false)
    (hlow : ∀ j < b, q.testBit j = true) : scanBits q = some b := by
  have := @scanBitsAux_found q 0 64 b hb
    (by rw [shift_and_one_eq, h0]; simp) (fun j hj => by rw [shift_and_one_eq, hlow j hj]; simp)
  simpa using this

/-! List access helpers for the bitmap word sequence. -/

theorem getD_set_self {l : List Nat} {k : Nat} (hk : k < l.length) (v : Nat) :
    (l.set k v).getD k 0 = v := by
  rw [List.getD_eq_getElem _ _ (by rw [List.length_set]; exact hk)]
  exact List.getElem_set_self _

theorem getD_set_ne {l : List Nat} {j k : Nat} (h : k ≠ j) (v : Nat) :
    (l.set k v).getD j 0 = l.getD j 0 := by
  rw [List.getD_eq_getElem?_getD, List.getD_eq_getElem?_getD, List.getElem?_set_ne h]

theorem set_getD_self : ∀ (l : List Nat) (k : Nat), l.set k (l.getD k 0) = l := by
  intro l
  induction l with
  | nil => intro k; simp
  | cons a l ih =>
    intro k
    match k with
    | 0 => simp
    | k + 1 => rw [List.getD_cons_succ, List.set_cons_succ, ih k]

/-! Helper lemmas about the word-level scan of `allocate_frame`. -/

theorem allocateScan_some {bm : List Nat} {idx : Nat} {bm' : List Nat}
    (h : allocateScan bm = some (idx, bm')) :
    idx / 64 < bm.length ∧ idx % 64 < 64 ∧
    (bm.getD (idx / 64) 0).testBit (idx % 64) = false ∧
    bm' = bm.set (idx / 64) ((bm.getD (idx / 64) 0) ||| (1 <<< (idx % 64))) := by
  induction bm generalizing idx bm' with
  | nil => simp [allocateScan] at h
  | cons q rest ih =>
    have step : ∀ i r, allocateScan rest = some (i, r) → idx = 64 + i → bm' = q :: r →
        idx / 64 < (q :: rest).length ∧ idx % 64 < 64 ∧
        ((q :: rest).getD (idx / 64) 0).testBit (idx % 64) = false ∧
        bm' = (q :: rest).set (idx / 64)
          (((q :: rest).getD (idx / 64) 0) ||| (1 <<< (idx % 64))) := by
      intro i r hrec hidx hbm'
      obtain ⟨hlen, hmod, hbit, hset⟩ := ih hrec
      subst hidx; subst hbm'
      have hdiv : (64 + i) / 64 = i / 64 + 1 := by
        rw [Nat.add_comm 64 i, Nat.add_div_right _ (by omega)]
      have hmod' : (64 + i) % 64 = i % 64 := Nat.add_mod_left 64 i
      rw [hdiv, hmod', List.getD_cons_succ, List.set_cons_succ]
      exact ⟨by simpa using hlen, hmod, hbit, by rw [hset]⟩
    rw [allocateScan] at h
    by_cases hq : q = U64MAX
    · rw [if_neg (by simp [hq])] at h
      cases hrec : allocateScan rest with
      | some p =>
        obtain ⟨i, r⟩ := p
        simp only [hrec, Option.some.injEq, Prod.mk.injEq] at h
        exact step i r hrec h.1.symm h.2.symm
      | none => simp [hrec] at h
    · rw [if_pos (by simp [hq])] at h
      cases hscan : scanBits q with
      | some b =>
        simp only [hscan, Option.some.injEq, Prod.mk.injEq] at h
        obtain ⟨hb64, hbit, _⟩ := scanBits_some_spec hscan
        obtain ⟨ha, hb⟩ := h
        subst ha
        rw [Nat.div_eq_of_lt hb64, Nat.mod_eq_of_lt hb64]
        exact ⟨by simp, hb64, by simpa using hbit, by simpa using hb.symm⟩
      | none =>
        simp only [hscan] at h
        cases hrec : allocateScan rest with
        | some p =>
          obtain ⟨i, r⟩ := p
          simp only [hrec, Option.some.injEq, Prod.mk.injEq] at h
          exact step i r hrec h.1.symm h.2.symm
        | none => simp [hrec] at h

theorem allocateScan_none_iff {bm : List Nat} (hwf : ∀ w ∈ bm, w < 2 ^ 64) :
    allocateScan bm = none ↔ ∀ w ∈ bm, w = U64MAX := by
  induction bm with
  | nil => simp [allocateScan]
  | cons q rest ih =>
    have hwf' : ∀ w ∈ rest, w < 2 ^ 64 := fun w hw => hwf w (List.mem_cons_of_mem _ hw)
    rw [allocateScan]
    by_cases hq : q = U64MAX
    · rw [if_neg (by simp [hq])]
      cases hrec : allocateScan rest with
      | some p => simp [hrec, hq, (ih hwf').symm]
      | none =>
        have := (ih hwf').mp hrec
        simp only [hrec]
        simp only [hq, List.mem_cons, true_iff]
        intro w hw
        rcases hw with rfl | hw
        · rfl
        · exact this w hw
    · rw [if_pos (by simp [hq])]
      have hsc : scanBits q ≠ none := fun hn =>
        hq ((scanBits_eq_none_iff (hwf q (List.mem_cons_self _ _))).mp hn)
      cases hscan : scanBits q with
      | some b => simp [hq]
      | none => exact absurd hscan hsc

theorem allocateScan_at_first_nonfull {bm : List Nat} {k b : Nat}
    (hfull : ∀ j < k, bm.getD j 0 = U64MAX) (hk : k < bm.length)
    (hscan : scanBits (bm.getD k 0) = some b) :
    allocateScan bm = some (64 * k + b, bm.set k ((bm.getD k 0) ||| (1 <<< b))) := by
  induction k generalizing bm with
  | zero =>
    match bm with
    | [] => simp at hk
    | q :: rest =>
      rw [List.getD_cons_zero] at hscan
      have hq : q ≠ U64MAX := fun hmax => by
        rw [hmax] at hscan
        have : scanBits U64MAX = none := by decide
        rw [this] at hscan
        exact Option.noConfusion hscan
      rw [allocateScan, if_pos (by simp [hq]), hscan]
      simp
  | succ k ih =>
    match bm with
    | [] => simp at hk
    | q :: rest =>
      have hq : q = U64MAX := by simpa using hfull 0 (by omega)
      rw [allocateScan, if_neg (by simp [hq])]
      have := @ih rest
        (fun j hj => by simpa using hfull (j + 1) (by omega))
        (by simpa using hk)
        (by simpa using hscan)
      rw [this]
      have harith : 64 + (64 * k + b) = 64 * (k + 1) + b := by ring
      simp [harith]

/-! Bit-manipulation helper lemmas for the set/clear expressions. -/

theorem and_U64MAX {w : Nat} (hw : w < 2 ^ 64) : w &&& U64MAX = w := by
  rw [U64MAX_eq]
  apply Nat.eq_of_testBit_eq
  intro i
  rw [Nat.testBit_land, Nat.testBit_two_pow_sub_one]
  by_cases hi : i < 64
  · simp [hi]
  · have : w < 2 ^ i := lt_of_lt_of_le hw (Nat.pow_le_pow_right (by omega) (by omega))
    simp [Nat.testBit_lt_two_pow this]

theorem or_and_not_self {w b : Nat} (hw : w < 2 ^ 64) (hb : b < 64)
    (hbit : w.testBit b = false) :
    (w ||| (1 <<< b)) &&& (U64MAX ^^^ (1 <<< b)) = w := by
  rw [U64MAX_eq, Nat.one_shiftLeft]
  apply Nat.eq_of_testBit_eq
  intro i
  rw [Nat.testBit_land, Nat.testBit_lor, Nat.testBit_xor, Nat.testBit_two_pow,
    Nat.testBit_two_pow_sub_one]
  by_cases hib : b = i
  · subst hib
    simp [hb, hbit]
  · by_cases hi : i < 64
    · simp [hib, hi]
    · have : w < 2 ^ i := lt_of_lt_of_le hw (Nat.pow_le_pow_right (by omega) (by omega))
      simp [hib, hi, Nat.testBit_lt_two_pow this]

theorem testBit_or_shift_self (w b : Nat) : (w ||| (1 <<< b)).testBit b = true := by
  rw [Nat.one_shiftLeft, Nat.testBit_lor, Nat.testBit_two_pow_self]
  simp

theorem or_shift_ne {w b : Nat} (hbit : w.testBit b = false) : w ||| (1 <<< b) ≠ w := by
  intro h
  have := testBit_or_shift_self w b
  rw [h, hbit] at this
  exact Bool.noConfusion this

/-! Alignment helper lemmas for frame addresses. -/

theorem alignDown_add_mul (u a : Nat) :
    alignDown (u + a * 4096) 4096 = (u - u % 4096) + a * 4096 := by
  unfold alignDown
  rw [Nat.add_mul_mod_self_right]
  have := Nat.mod_le u 4096
  omega

theorem frame_from_bit_index_eq (al : PhysFrameAllocator) (a : Nat) :
    frame_from_bit_index al a =
      (al.usable_memory_region.start - al.usable_memory_region.start % 4096) + a * 4096 := by
  unfold frame_from_bit_index
  rw [Nat.shiftLeft_eq, show (2 : Nat) ^ 12 = 4096 by norm_num, alignDown_add_mul]

theorem frame_from_bit_index_inj (al : PhysFrameAllocator) {a b : Nat} (h : a ≠ b) :
    frame_from_bit_index al a ≠ frame_from_bit_index al b := by
  rw [frame_from_bit_index_eq, frame_from_bit_index_eq]
  omega

theorem frame_from_bit_index_aligned (al : PhysFrameAllocator)
    (hal : al.usable_memory_region.start % 4096 = 0) (a : Nat) :
    frame_from_bit_index al a = al.usable_memory_region.start + a * 4096 := by
  rw [frame_from_bit_index_eq, hal]
  omega

theorem getD_lt_of_wf {l : List Nat} (hwf : ∀ w ∈ l, w < 2 ^ 64) (k : Nat) :
    l.getD k 0 < 2 ^ 64 := by
  by_cases hk : k < l.length
  · rw [List.getD_eq_getElem _ _ hk]
    exact hwf _ (List.getElem_mem hk)
  · rw [List.getD_eq_getElem?_getD, List.getElem?_eq_none (by omega), Option.getD_none]
    positivity

/-- Clearing a bit with `w & !(1 << b)` clears bit `b` and nothing else. -/
theorem and_not_shift_testBit {w b : Nat} (hw : w < 2 ^ 64) (hb : b < 64) :
    ((w &&& (U64MAX ^^^ (1 <<< b))).testBit b = false) ∧
    (∀ i, i ≠ b → (w &&& (U64MAX ^^^ (1 <<< b))).testBit i = w.testBit i) := by
  constructor
  · rw [U64MAX_eq, Nat.one_shiftLeft, Nat.testBit_land, Nat.testBit_xor,
      Nat.testBit_two_pow_self, Nat.testBit_two_pow_sub_one]
    simp [hb]
  · intro i hib
    rw [U64MAX_eq, Nat.one_shiftLeft, Nat.testBit_land, Nat.testBit_xor,
      Nat.testBit_two_pow, Nat.testBit_two_pow_sub_one]
    by_cases hi : i < 64
    · simp [hi, Ne.symm hib]
    · have : w < 2 ^ i := lt_of_lt_of_le hw (Nat.pow_le_pow_right (by omega) (by omega))
      simp [hi, Ne.symm hib, Nat.testBit_lt_two_pow this]

/-- Unfolded form of `deallocate_frame` (the `let`s zeta-reduced). -/
theorem deallocate_frame_def (s : AllocState) (frame : Nat) :
    deallocate_frame s frame =
      { s with
        bitmap := s.bitmap.set (((frame - s.alloc.usable_memory_region.start) >>> 12) >>> 6)
          ((s.bitmap.getD (((frame - s.alloc.usable_memory_region.start) >>> 12) >>> 6) 0) &&&
            (U64MAX ^^^
              (1 <<< (((frame - s.alloc.usable_memory_region.start) >>> 12) % 64)))) } := rfl

/-- Unfolded form of `allocate_frame_nth` (the `let`s zeta-reduced). -/
theorem allocate_frame_nth_def (s : AllocState) (start : Nat) :
    allocate_frame_nth s start =
      if (s.bitmap.getD
            (((alignDown start 4096 - s.alloc.usable_memory_region.start) >>> 12) >>> 6) 0) >>>
          (((alignDown start 4096 - s.alloc.usable_memory_region.start) >>> 12) % 64) = 1 then
        (some (alignDown start 4096),
          { s with
            bitmap := s.bitmap.set
              (((alignDown start 4096 - s.alloc.usable_memory_region.start) >>> 12) >>> 6)
              ((s.bitmap.getD
                  (((alignDown start 4096 - s.alloc.usable_memory_region.start) >>> 12) >>> 6) 0)
                &&& (U64MAX ^^^
                  (0 <<< (((alignDown start 4096 - s.alloc.usable_memory_region.start) >>> 12)
                    % 64)))) })
      else (none, s) := rfl

/-- Inversion of a successful `allocate_frame` call. -/
theorem allocate_frame_some {s : AllocState} {f : Nat} {s1 : AllocState}
    (h : allocate_frame s = (some f, s1)) :
    ∃ idx bm, allocateScan s.bitmap = some (idx, bm) ∧
      f = frame_from_bit_index s.alloc idx ∧ s1 = { s with bitmap := bm } := by
  unfold allocate_frame at h
  cases hscan : allocateScan s.bitmap with
  | some p =>
    obtain ⟨idx, bm⟩ := p
    rw [hscan, Prod.mk.injEq] at h
    exact ⟨idx, bm, rfl, (Option.some.inj h.1).symm, h.2.symm⟩
  | none =>
    rw [hscan, Prod.mk.injEq] at h
    exact absurd h.1 (by simp)

/-- One unfolding step of the task-id sequence. -/
theorem taskIdSeq_succ (c n : Nat) :
    taskIdSeq c (n + 1) = c :: taskIdSeq ((c + 1) % 2 ^ 64) n := rfl

theorem taskIdSeq_getD {c n i : Nat} (hcn : c + n ≤ 2 ^ 64) (hi : i < n) :
    (taskIdSeq c n).getD i 0 = c + i := by
  induction n generalizing c i with
  | zero => omega
  | succ n ih =>
    rw [taskIdSeq_succ]
    match i with
    | 0 => rw [List.getD_cons_zero]; omega
    | i + 1 =>
      have hc1 : (c + 1) % 2 ^ 64 = c + 1 := Nat.mod_eq_of_lt (by omega)
      rw [List.getD_cons_succ, hc1, ih (by omega) (by omega)]
      omega

/-! Helper lemmas about the bootstrap mapping loop. -/

theorem mapAll_lookup_mono {pt : List (Nat × Nat)} {ps fs : List Nat}
    {pt' : List (Nat × Nat)} (h : mapAll pt ps fs = some pt') {q : Nat}
    (hq : (pt.lookup q).isSome) : (pt'.lookup q).isSome := by
  induction ps generalizing pt fs with
  | nil =>
    rw [mapAll] at h
    obtain rfl : pt = pt' := Option.some.inj h
    exact hq
  | cons p ps ih =>
    cases fs with
    | nil => exact absurd h (by rw [mapAll]; simp)
    | cons f fs =>
      rw [mapAll] at h
      by_cases hp : (pt.lookup p).isSome
      · rw [if_pos hp] at h; exact absurd h (by simp)
      · rw [if_neg hp, if_pos (by simp [List.lookup])] at h
        refine ih h ?_
        by_cases hqp : q = p
        · subst hqp; simp [List.lookup]
        · simp only [List.lookup]
          rw [show (q == p) = false by simpa using hqp]
          exact hq

theorem mapAll_head {pt : List (Nat × Nat)} {p : Nat} {ps fs : List Nat}
    {pt' : List (Nat × Nat)} (h : mapAll pt (p :: ps) fs = some pt') :
    (pt'.lookup p).isSome := by
  cases fs with
  | nil => exact absurd h (by rw [mapAll]; simp)
  | cons f fs =>
    rw [mapAll] at h
    by_cases hp : (pt.lookup p).isSome
    · rw [if_pos hp] at h; exact absurd h (by simp)
    · rw [if_neg hp, if_pos (by simp [List.lookup])] at h
      exact mapAll_lookup_mono h (by simp [List.lookup])

theorem mapAll_already_mapped {pt : List (Nat × Nat)} {p : Nat} (ps fs : List Nat)
    (hp : (pt.lookup p).isSome) : mapAll pt (p :: ps) fs = none := by
  cases fs with
  | nil => rw [mapAll]
  | cons f fs => rw [mapAll, if_pos hp]

/-- The page range of the bitmap window always starts at `BITMAP_START`
    (which is page-aligned) and is never empty. -/
theorem bitMapPageRange_head (r : MemoryRegion) :
    ∃ tl, bitMapPageRange r = BITMAP_START :: tl := by
  unfold bitMapPageRange pageRangeInclusive
  have h1 : alignDown BITMAP_START 4096 = BITMAP_START := by decide
  have h2 : alignDown BITMAP_START 4096 ≤
      alignDown (BITMAP_START + (r.«end» - r.start)) 4096 := by
    unfold alignDown BITMAP_START
    omega
  rw [if_pos h2, h1, List.range_succ_eq_map, List.map_cons]
  refine ⟨List.map (fun k => BITMAP_START + 4096 * k)
    (List.map Nat.succ
      (List.range ((alignDown (BITMAP_START + (r.«end» - r.start)) 4096 - BITMAP_START)
        / 4096))), ?_⟩
  norm_num

/-- C1: evaluation of `allocate_frame_nth` at the failing input.  On
    `demoFree` (every frame free, bitmap all zero) the claim requires the
    call on `addr = usable_memory_region.start = 4096` to succeed, set
    bit 0 and return the frame 4096; the code returns `None`.  On
    `demoOne` (bit 0 already 1) the claim requires `None`; the code
    returns the frame and leaves the bitmap word unchanged, because its
    test `word >> bit_index == 1` is a whole-word comparison and its
    store `word &= !(0 << bit_index)` is a no-op. -/
theorem allocate_frame_nth_wrong_on_free_and_allocated :
    allocate_frame_nth demoFree 4096 = (none, demoFree) ∧
    allocate_frame_nth demoOne 4096 = (some 4096, demoOne) ∧
    (demoFree.bitmap.getD 0 0).testBit 0 = false ∧
    (demoOne.bitmap.getD 0 0).testBit 0 = true := by decide

/-- C2: when the bitmap has a zero bit, `allocate_frame` skips the leading
    all-ones words, picks the lowest zero bit `b` of the first non-full
    word `k`, sets that bit, and returns the physical frame at
    `usable_memory_region.start + i * 4096` for the global bit index
    `i = 64 * k + b`. -/
theorem allocate_frame_first_free_bit (s : AllocState) (k b : Nat)
    (hal : s.alloc.usable_memory_region.start % 4096 = 0)
    (hk : k < s.bitmap.length)
    (hfull : ∀ j < k, s.bitmap.getD j 0 = U64MAX)
    (hb : b < 64)
    (hbit : (s.bitmap.getD k 0).testBit b = false)
    (hlow : ∀ i < b, (s.bitmap.getD k 0).testBit i = true) :
    allocate_frame s =
      (some (s.alloc.usable_memory_region.start + (64 * k + b) * 4096),
       { s with bitmap := s.bitmap.set k ((s.bitmap.getD k 0) ||| (1 <<< b)) }) := by
  have hscan : scanBits (s.bitmap.getD k 0) = some b := scanBits_found hb hbit hlow
  have hloop := allocateScan_at_first_nonfull hfull hk hscan
  unfold allocate_frame
  simp only [hloop]
  rw [frame_from_bit_index_aligned _ hal]

/-- Witness for C2: on the demo allocator with bitmap `[full, 0b1]` the
    first free bit is bit 1 of word 1, global index 65, and `allocate_frame`
    returns the frame at `4096 + 65 * 4096 = 270336`. -/
theorem allocate_frame_first_free_bit_witness :
    allocate_frame ⟨demoAlloc, [U64MAX, 1]⟩ =
      (some 270336, ⟨demoAlloc, [U64MAX, 3]⟩) := by
  rw [allocate_frame_first_free_bit ⟨demoAlloc, [U64MAX, 1]⟩ 1 1 (by decide) (by decide)
    (fun j hj => by
      have hj0 : j = 0 := by omega
      subst hj0
      rfl)
    (by omega) (by decide)
    (fun i hi => by
      have hi0 : i = 0 := by omega
      subst hi0
      decide)]
  decide

/-- C3 counterexample: on the demo allocator whose usable region
    `[4096, 12288)` holds exactly the two frames 4096 and 8192, starting
    from the free bitmap, the first two `allocate_frame` calls allocate
    every frame of the region exactly once, yet the third call does not
    return `None`: it returns the frame 12288, whose start address equals
    `usable_memory_region.end` — the scan covers more bit positions than
    the region has frames. -/
theorem allocate_frame_exhaustion_overrun :
    allocate_frame demoFree = (some 4096, demoOne) ∧
    allocate_frame demoOne = (some 8192, demoTwo) ∧
    (allocate_frame demoTwo).1 = some 12288 ∧
    (allocate_frame demoTwo).1 ≠ none ∧
    demoFree.alloc.usable_memory_region.«end» ≤ 12288 := by decide

/-- C3 (amended): `allocate_frame` returns `None` exactly when every
    64-bit word of the scanned bitmap equals all-ones. -/
theorem allocate_frame_none_iff_full (s : AllocState) (hwf : s.wf) :
    (allocate_frame s).1 = none ↔ ∀ w ∈ s.bitmap, w = U64MAX := by
  rw [← allocateScan_none_iff hwf]
  unfold allocate_frame
  cases hscan : allocateScan s.bitmap with
  | some p =>
    obtain ⟨idx, bm⟩ := p
    simp [hscan]
  | none => simp [hscan]

/-- Witness for C3's amended theorem: the fully-set demo bitmap makes
    `allocate_frame` return `None`. -/
theorem allocate_frame_none_iff_full_witness :
    (allocate_frame demoFull).1 = none :=
  (allocate_frame_none_iff_full demoFull (by decide)).mpr (by decide)

/-- C9: the task identifiers handed out by successive `Task::new` calls
    (an atomic counter starting at 0, incremented by 1 per creation) are
    strictly increasing and pairwise distinct for any creation count that
    a 64-bit counter can reach without wrapping. -/
theorem task_ids_strictly_increasing (n i j : Nat) (hn : n ≤ 2 ^ 64)
    (hij : i < j) (hj : j < n) :
    (taskIdSeq 0 n).getD i 0 < (taskIdSeq 0 n).getD j 0 ∧
    (taskIdSeq 0 n).getD i 0 ≠ (taskIdSeq 0 n).getD j 0 := by
  rw [taskIdSeq_getD (by omega) (by omega), taskIdSeq_getD (by omega) (by omega)]
  omega

/-- Witness for C9 at three task creations. -/
theorem task_ids_strictly_increasing_witness :
    (taskIdSeq 0 3).getD 0 0 < (taskIdSeq 0 3).getD 2 0 ∧
    (taskIdSeq 0 3).getD 0 0 ≠ (taskIdSeq 0 3).getD 2 0 :=
  task_ids_strictly_increasing 3 0 2 (by decide) (by omega) (by omega)

/-- C7: two consecutive successful `allocate_frame` calls with no
    intervening deallocation return distinct frames: the first call sets
    the bit it chose, so the second scan cannot pick the same bit index,
    and distinct bit indices give distinct frame start addresses. -/
theorem allocate_frame_consecutive_distinct {s : AllocState} {f1 f2 : Nat}
    {s1 s2 : AllocState}
    (h1 : allocate_frame s = (some f1, s1)) (h2 : allocate_frame s1 = (some f2, s2)) :
    f1 ≠ f2 := by
  obtain ⟨i1, bmA, hscan1, hf1, hs1⟩ := allocate_frame_some h1
  obtain ⟨i2, bmB, hscan2, hf2, hs2⟩ := allocate_frame_some h2
  obtain ⟨hk1, hb1, hbit1, hbm1⟩ := allocateScan_some hscan1
  obtain ⟨hk2, hb2, hbit2, hbm2⟩ := allocateScan_some hscan2
  have halloc : s1.alloc = s.alloc := by rw [hs1]
  have hbitmap1 : s1.bitmap = bmA := by rw [hs1]
  have hne : i1 ≠ i2 := by
    intro he
    rw [hbitmap1, hbm1, ← he, getD_set_self hk1, testBit_or_shift_self] at hbit2
    exact Bool.noConfusion hbit2
  rw [hf1, hf2, halloc]
  exact frame_from_bit_index_inj _ hne

/-- Witness for C7: allocating twice from the free demo bitmap returns
    4096 then 8192. -/
theorem allocate_frame_consecutive_distinct_witness : (4096 : Nat) ≠ 8192 :=
  @allocate_frame_consecutive_distinct demoFree 4096 8192 demoOne demoTwo
    (by decide) (by decide)

/-- C4: allocate, deallocate the returned frame, allocate again with no
    other allocation in between: the deallocation restores the exact
    pre-allocation state, so the second allocation returns the same frame
    (for allocator states whose usable region start is 4 KiB aligned, as
    boot-reported regions are). -/
theorem allocate_deallocate_allocate_same_frame (s : AllocState) {f : Nat} {s1 : AllocState}
    (hwf : s.wf) (hal : s.alloc.usable_memory_region.start % 4096 = 0)
    (h1 : allocate_frame s = (some f, s1)) :
    deallocate_frame s1 f = s ∧ allocate_frame (deallocate_frame s1 f) = (some f, s1) := by
  obtain ⟨idx, bm, hscan, hf, hs1⟩ := allocate_frame_some h1
  obtain ⟨hk, hb, hbit, hbm⟩ := allocateScan_some hscan
  have hw64 : s.bitmap.getD (idx / 64) 0 < 2 ^ 64 := getD_lt_of_wf hwf _
  have hfval : f = s.alloc.usable_memory_region.start + idx * 4096 := by
    rw [hf, frame_from_bit_index_aligned _ hal]
  subst hs1
  have hdealloc : deallocate_frame { s with bitmap := bm } f = s := by
    rw [deallocate_frame_def]
    dsimp only
    have hsub : f - s.alloc.usable_memory_region.start = idx * 4096 := by omega
    have hidx : (idx * 4096) >>> 12 = idx := by
      rw [Nat.shiftRight_eq_div_pow, show (2 : Nat) ^ 12 = 4096 by norm_num]
      omega
    have hdiv : idx >>> 6 = idx / 64 := by
      rw [Nat.shiftRight_eq_div_pow]
    rw [hsub, hidx, hdiv, hbm, getD_set_self hk, or_and_not_self hw64 hb hbit,
      List.set_set, set_getD_self]
  refine ⟨hdealloc, ?_⟩
  rw [hdealloc]
  exact h1

/-- Witness for C4 on the demo allocator with bitmap `[6]`: the
    allocation returns frame 4096 for bit 0 giving bitmap `[7]`,
    deallocating 4096 restores `[6]`, and reallocation returns 4096
    again. -/
theorem allocate_deallocate_allocate_same_frame_witness :
    deallocate_frame ⟨demoAlloc, [7]⟩ 4096 = ⟨demoAlloc, [6]⟩ ∧
    allocate_frame (deallocate_frame ⟨demoAlloc, [7]⟩ 4096) =
      (some 4096, ⟨demoAlloc, [7]⟩) :=
  allocate_deallocate_allocate_same_frame ⟨demoAlloc, [6]⟩ (by decide) (by decide)
    (by decide)

/-- C8: the store `w &= !(0 << bit_index)` in the success branch of
    `allocate_frame_nth` is the identity on every `u64` word, so
    `allocate_frame_nth` never changes the allocator state, while a
    successful `allocate_frame` does change the bitmap: it sets a bit
    that was 0. -/
theorem allocate_frame_nth_store_noop (s : AllocState) (hwf : s.wf) :
    (∀ w b : Nat, w < 2 ^ 64 → b < 64 → w &&& (U64MAX ^^^ (0 <<< b)) = w) ∧
    (∀ a, (allocate_frame_nth s a).2 = s) ∧
    (∀ f s', allocate_frame s = (some f, s') → s'.bitmap ≠ s.bitmap) := by
  have hnoop : ∀ w b : Nat, w < 2 ^ 64 → w &&& (U64MAX ^^^ (0 <<< b)) = w := by
    intro w b hw
    rw [Nat.zero_shiftLeft, Nat.xor_zero, and_U64MAX hw]
  refine ⟨fun w b hw _ => hnoop w b hw, ?_, ?_⟩
  · intro a
    rw [allocate_frame_nth_def]
    by_cases hcond : (s.bitmap.getD
        (((alignDown a 4096 - s.alloc.usable_memory_region.start) >>> 12) >>> 6) 0) >>>
        (((alignDown a 4096 - s.alloc.usable_memory_region.start) >>> 12) % 64) = 1
    · rw [if_pos hcond]
      dsimp only
      rw [hnoop _ _ (getD_lt_of_wf hwf _), set_getD_self]
    · rw [if_neg hcond]
  · intro f s' h heq
    obtain ⟨idx, bm, hscan, hfv, hs'⟩ := allocate_frame_some h
    obtain ⟨hk, hb, hbit, hbm⟩ := allocateScan_some hscan
    rw [hs'] at heq
    have heq' : bm = s.bitmap := heq
    rw [hbm] at heq'
    have h2 := congrArg (fun l => List.getD l (idx / 64) 0) heq'
    dsimp only at h2
    rw [getD_set_self hk] at h2
    exact or_shift_ne hbit h2

/-- Witness for C8: the no-op store expression at `w = 5`, `b = 3`, and
    `allocate_frame_nth` leaving the one-frame-allocated demo state
    untouched. -/
theorem allocate_frame_nth_store_noop_witness :
    ((5 : Nat) &&& (U64MAX ^^^ (0 <<< 3)) = 5) ∧
    (allocate_frame_nth demoOne 4096).2 = demoOne := by
  obtain ⟨h1, h2, h3⟩ := allocate_frame_nth_store_noop demoOne (by decide)
  exact ⟨h1 5 3 (by decide) (by decide), h2 4096⟩

/-- C10: a successful `allocate_frame` changes exactly one bitmap word,
    only by setting one previously-zero bit, and leaves the `alloc`
    region fields and every other word alone; a failing call changes
    nothing; `deallocate_frame` changes at most one word, only by
    clearing one bit, leaving every other word and the region fields
    alone. -/
theorem allocate_deallocate_frame_effects (s : AllocState) (hwf : s.wf) :
    ((allocate_frame s).2.alloc = s.alloc) ∧
    (∀ f, (allocate_frame s).1 = some f →
      ∃ k b, k < s.bitmap.length ∧ b < 64 ∧
        (s.bitmap.getD k 0).testBit b = false ∧
        (allocate_frame s).2.bitmap = s.bitmap.set k ((s.bitmap.getD k 0) ||| (1 <<< b)) ∧
        ∀ j, j ≠ k → (allocate_frame s).2.bitmap.getD j 0 = s.bitmap.getD j 0) ∧
    ((allocate_frame s).1 = none → (allocate_frame s).2 = s) ∧
    (∀ f, (deallocate_frame s f).alloc = s.alloc ∧
      ∃ k b, b < 64 ∧
        (deallocate_frame s f).bitmap =
          s.bitmap.set k ((s.bitmap.getD k 0) &&& (U64MAX ^^^ (1 <<< b))) ∧
        ((deallocate_frame s f).bitmap.getD k 0).testBit b = false ∧
        (∀ i, i ≠ b → ((deallocate_frame s f).bitmap.getD k 0).testBit i =
          (s.bitmap.getD k 0).testBit i) ∧
        ∀ j, j ≠ k → (deallocate_frame s f).bitmap.getD j 0 = s.bitmap.getD j 0) := by
  refine ⟨?_, ?_, ?_, ?_⟩
  · unfold allocate_frame
    cases hscan : allocateScan s.bitmap with
    | some p =>
      obtain ⟨idx, bm⟩ := p
      rfl
    | none => rfl
  · intro f hf
    have h : allocate_frame s = (some f, (allocate_frame s).2) := by rw [← hf]
    obtain ⟨idx, bm, hscan, hfv, hs'⟩ := allocate_frame_some h
    obtain ⟨hk, hb, hbit, hbm⟩ := allocateScan_some hscan
    refine ⟨idx / 64, idx % 64, hk, hb, hbit, ?_, ?_⟩
    · rw [hs']
      exact hbm
    · intro j hj
      rw [hs']
      show bm.getD j 0 = s.bitmap.getD j 0
      rw [hbm, getD_set_ne (Ne.symm hj)]
  · intro hnone
    unfold allocate_frame at hnone ⊢
    cases hscan : allocateScan s.bitmap with
    | some p =>
      obtain ⟨idx, bm⟩ := p
      rw [hscan] at hnone
      exact absurd hnone (by simp)
    | none => rfl
  · intro f
    refine ⟨rfl, ((f - s.alloc.usable_memory_region.start) >>> 12) >>> 6,
      ((f - s.alloc.usable_memory_region.start) >>> 12) % 64,
      Nat.mod_lt _ (by omega), rfl, ?_, ?_, ?_⟩
    · by_cases hK : ((f - s.alloc.usable_memory_region.start) >>> 12) >>> 6 <
          s.bitmap.length
      · rw [deallocate_frame_def]
        dsimp only
        rw [getD_set_self hK]
        exact (and_not_shift_testBit (getD_lt_of_wf hwf _) (Nat.mod_lt _ (by omega))).1
      · rw [deallocate_frame_def]
        dsimp only
        rw [List.set_eq_of_length_le (by omega), List.getD_eq_getElem?_getD,
          List.getElem?_eq_none (by omega), Option.getD_none]
        exact Nat.zero_testBit _
    · intro i hi
      by_cases hK : ((f - s.alloc.usable_memory_region.start) >>> 12) >>> 6 <
          s.bitmap.length
      · rw [deallocate_frame_def]
        dsimp only
        rw [getD_set_self hK]
        exact (and_not_shift_testBit (getD_lt_of_wf hwf _) (Nat.mod_lt _ (by omega))).2 i hi
      · rw [deallocate_frame_def]
        dsimp only
        rw [List.set_eq_of_length_le (by omega)]
    · intro j hj
      rw [deallocate_frame_def]
      dsimp only
      rw [getD_set_ne (Ne.symm hj)]

/-- Witness for C10 at the free demo state: the allocator regions are
    untouched and the failure case leaves the state unchanged. -/
theorem allocate_deallocate_frame_effects_witness :
    ((allocate_frame demoFree).2.alloc = demoFree.alloc) ∧
    ((allocate_frame demoFree).1 = none → (allocate_frame demoFree).2 = demoFree) := by
  obtain ⟨h1, h2, h3, h4⟩ := allocate_deallocate_frame_effects demoFree (by decide)
  exact ⟨h1, h3⟩

/-- C5 counterexample: the first `init` call on the region list succeeds
    and installs the singleton and byte count; the second call is not a
    no-op: it re-runs `map_bit_frames`, whose `map_to` on the
    already-mapped first bitmap page fails and is unwrapped — a panic,
    modelled as `none`. -/
theorem init_second_call_fails :
    PhysFrameAllocator.init demoG0 demoRegions = some demoG1 ∧
    PhysFrameAllocator.init demoG1 demoRegions = none := by decide

/-- C5 (amended): after any successful `init`, calling `init` again with
    the same memory-region list panics inside `map_bit_frames` (the first
    bitmap page is already mapped, so `map_to` errs and the source
    unwraps the error); only the `Once` slots themselves are idempotent,
    and the second call never reaches them. -/
theorem init_twice (g g' : GlobalState) (mrs : List MemoryRegion)
    (h : PhysFrameAllocator.init g mrs = some g') :
    PhysFrameAllocator.init g' mrs = none := by
  unfold PhysFrameAllocator.init at h ⊢
  cases hm : map_bit_frames g.page_table (initRegions mrs).2.1 (initRegions mrs).2.2 with
  | none =>
    rw [hm] at h
    exact absurd h (by simp)
  | some pt =>
    simp only [hm] at h
    have hg' : g'.page_table = pt := by
      rw [← Option.some.inj h]
    unfold map_bit_frames at hm
    by_cases hlen : (bitMapPageRange (initRegions mrs).2.1).length = (initRegions mrs).2.2
    · rw [if_pos hlen] at hm
      obtain ⟨tl, htl⟩ := bitMapPageRange_head (initRegions mrs).2.1
      rw [htl] at hm
      have hsome : (pt.lookup BITMAP_START).isSome := mapAll_head hm
      have hnone : map_bit_frames g'.page_table (initRegions mrs).2.1
          (initRegions mrs).2.2 = none := by
        rw [hg']
        unfold map_bit_frames
        rw [if_pos hlen, htl]
        exact mapAll_already_mapped _ _ hsome
      simp only [hnone]
    · rw [if_neg hlen] at hm
      exact absurd hm (by simp)

/-- Witness for C5's amended theorem at the demo boot map. -/
theorem init_twice_witness :
    PhysFrameAllocator.init demoG1 demoRegions = none :=
  init_twice demoG0 demoG1 demoRegions (by decide)

/-- C6 counterexample: at the boot region `[0, 2^24)` init computes
    `n = 2` bitmap frames and stores `bit_map_region.end = 8191 =
    start + n*4096 - 1`, not the claimed half-open partition boundary
    `start + n*4096 = 8192`; and the bitmap size `n*4096 = 8192` bytes is
    not equal to `ceil(usable_bytes/4096/8) = 512` bytes rounded up to
    whole frames, which is 4096 bytes. -/
theorem init_bitmap_sizing_off :
    PhysFrameAllocator.init demoG0 [⟨0, 0x1000000, MemoryRegionKind.Usable⟩] =
      some demoG2 ∧
    demoG2.frame_allocator = some demoAlloc2 ∧
    demoAlloc2.bit_map_region.«end» ≠
      demoAlloc2.bit_map_region.start + (((0x1000000 - 0) >>> 24) + 1) * 4096 ∧
    (((0x1000000 - 0) >>> 24) + 1) * 4096 ≠
      4096 * ((((0x1000000 - 0) + 32767) / 32768 + 4095) / 4096) := by decide

/-- C6 (amended): for a boot map whose single region is usable with range
    `[s, e)`, a successful init computes `n = ((e - s) >> 24) + 1` bitmap
    frames — at least as many bytes as the minimal
    `ceil(usable_bytes/4096/8)` rounded up to whole frames, and generally
    more — and stores `bit_map_region = {start := s, end := s + n*4096 - 1}`
    (an inclusive end, one byte short of the frame boundary) and
    `usable_memory_region = [s + n*4096, e)`, publishing
    `e - (s + n*4096)` as the total allocatable byte count. -/
theorem init_single_usable_region_layout (g : GlobalState) (r : MemoryRegion)
    (g' : GlobalState) (hkind : r.kind = MemoryRegionKind.Usable)
    (hfa : g.frame_allocator = none) (hbytes : g.bytes_available_ram = none)
    (h : PhysFrameAllocator.init g [r] = some g') :
    g'.frame_allocator = some
      ⟨⟨r.start + (((r.«end» - r.start) >>> 24) + 1) * 4096, r.«end»,
        MemoryRegionKind.Usable⟩,
       ⟨r.start, r.start + (((r.«end» - r.start) >>> 24) + 1) * 4096 - 1,
        MemoryRegionKind.Bootloader⟩⟩ ∧
    g'.bytes_available_ram = some
      (r.«end» - (r.start + (((r.«end» - r.start) >>> 24) + 1) * 4096)) ∧
    ((r.«end» - r.start) >>> 24) + 1 ≥ ((r.«end» - r.start) + (2 ^ 27 - 1)) / 2 ^ 27 := by
  have hIR : initRegions [r] =
      (⟨r.start + (((r.«end» - r.start) >>> 24) + 1) * 4096, r.«end»,
        MemoryRegionKind.Usable⟩,
       ⟨r.start, r.start + (((r.«end» - r.start) >>> 24) + 1) * 4096 - 1,
        MemoryRegionKind.Bootloader⟩,
       ((r.«end» - r.start) >>> 24) + 1) := by
    unfold initRegions
    rw [List.foldl_cons, List.foldl_nil]
    unfold initAccum
    rw [if_pos hkind]
    simp only [MemoryRegion.empty, Nat.shiftLeft_eq]
  unfold PhysFrameAllocator.init at h
  rw [hIR] at h
  dsimp only at h
  cases hm : map_bit_frames g.page_table
      ⟨r.start, r.start + (((r.«end» - r.start) >>> 24) + 1) * 4096 - 1,
        MemoryRegionKind.Bootloader⟩
      (((r.«end» - r.start) >>> 24) + 1) with
  | none =>
    rw [hm] at h
    exact absurd h (by simp)
  | some pt =>
    simp only [hm] at h
    obtain rfl := (Option.some.inj h).symm
    refine ⟨?_, ?_, ?_⟩
    · dsimp only
      rw [hfa]
      rfl
    · dsimp only
      rw [hbytes]
      rfl
    · rw [Nat.shiftRight_eq_div_pow]
      have h1 : ((r.«end» - r.start) + (2 ^ 27 - 1)) / 2 ^ 27 ≤
          ((r.«end» - r.start) + 2 ^ 27) / 2 ^ 27 :=
        Nat.div_le_div_right (by omega)
      have h2 : ((r.«end» - r.start) + 2 ^ 27) / 2 ^ 27 =
          (r.«end» - r.start) / 2 ^ 27 + 1 :=
        Nat.add_div_right _ (by positivity)
      have h3 : (r.«end» - r.start) / 2 ^ 27 ≤ (r.«end» - r.start) / 2 ^ 24 :=
        Nat.div_le_div_left (by norm_num) (by positivity)
      omega

/-- Witness for C6's amended theorem at the 16 MiB boot region. -/
theorem init_single_usable_region_layout_witness :
    demoG2.frame_allocator = some
      ⟨⟨0 + (((0x1000000 - 0) >>> 24) + 1) * 4096, 0x1000000, MemoryRegionKind.Usable⟩,
       ⟨0, 0 + (((0x1000000 - 0) >>> 24) + 1) * 4096 - 1, MemoryRegionKind.Bootloader⟩⟩ ∧
    demoG2.bytes_available_ram = some
      (0x1000000 - (0 + (((0x1000000 - 0) >>> 24) + 1) * 4096)) ∧
    ((0x1000000 - 0) >>> 24) + 1 ≥ ((0x1000000 - 0) + (2 ^ 27 - 1)) / 2 ^ 27 :=
  init_single_usable_region_layout demoG0 ⟨0, 0x1000000, MemoryRegionKind.Usable⟩
    demoG2 rfl rfl rfl (by decide)

end BlancOS
